import Mathlib

/-!
Verification of the BlockArt ink-miner against its specification.

The definitions below are a shallow embedding of the Go sources
(src/unnamed/part_001, the current ink-miner, and src/ink-miner.go, an
earlier snapshot of the same file).  Go maps are modelled as association
lists, Go panics and non-termination as the value none of an Option,
uint32 arithmetic as Nat/Int with explicit reduction mod 2^32, and the
external collaborators (MD5 hashing, ECDSA signatures, the SVG geometry
utilities) as function parameters, since their code is outside this
repository.
-/

namespace BlockArt

/-- Public keys are compared with reflect.DeepEqual in the source, i.e.
structurally; the embedding keeps the curve-point coordinates. -/
structure PubKey where
  x : Int
  y : Int
deriving DecidableEq, Repr

/-- OpRecord from the blockchain package: the op string, its ink cost,
the ECDSA signature pair and the author's public key. -/
structure OpRecord where
  op : String
  inkUsed : Nat
  opSigR : Int
  opSigS : Int
  authorPubKey : PubKey
deriving DecidableEq, Repr

/-- Block from the blockchain package.  OpRecords, a Go map from op-hash
to record, is modelled as an association list. -/
structure Block where
  blockNum : Nat
  prevHash : String
  opRecords : List (String × OpRecord)
  minerPubKey : PubKey
  nonce : Nat
deriving DecidableEq, Repr

/-- BlockChain from the blockchain package: hash-keyed block store plus
the newest (tip) hash. -/
structure BlockChain where
  blocks : List (String × Block)
  newestHash : String
deriving DecidableEq, Repr

/-- The subset of MinerNetSettings the embedded functions read. -/
structure MinerNetSettings where
  genesisBlockHash : String
  inkPerOpBlock : Nat
  inkPerNoOpBlock : Nat
  powDifficultyOpBlock : Nat
  powDifficultyNoOpBlock : Nat
  canvasXMax : Nat
  canvasYMax : Nat
deriving DecidableEq, Repr

/-- The geometry collaborator (util package), an external dependency of
the miner; its observable interface is a parameter of the embedding. -/
structure Geometry where
  convertPathToPoints : String → List (Int × Int)
  checkOutOfBounds : List (Int × Int) → Nat → Nat → Bool
  checkOverlap : List (Int × Int) → List (Int × Int) → Bool
  calculateInkRequired : List (Int × Int) → Bool → Bool → Nat

/-- Client-visible error kinds used by the embedded handlers. -/
inductive MinerError where
  | insufficientInk
  | outOfBounds
  | shapeOverlap
  | invalidBlockHash
  | invalidShapeHash
  | shapeOwner
  | misc
deriving DecidableEq, Repr

/-- Go map access blockChain.Blocks with a string key. -/
def lookupBlock : List (String × Block) → String → Option Block
  | [], _ => none
  | p :: rest, h => if p.1 = h then some p.2 else lookupBlock rest h

/-- Go map access for a pending-operations or op-records map. -/
def lookupOp : List (String × OpRecord) → String → Option OpRecord
  | [], _ => none
  | p :: rest, h => if p.1 = h then some p.2 else lookupOp rest h

/-- Whether a character list begins with the given separator. -/
def listStartsWith : List Char → List Char → Bool
  | _, [] => true
  | [], _ :: _ => false
  | c :: cs, d :: ds => c = d && listStartsWith cs ds

/-- Left-to-right split around each non-overlapping occurrence of sep,
the semantics of strings.Split of the Go standard library for a
non-empty separator; fuel is the input length, so the fuel-exhausted arm
is never reached. -/
def splitOnFuel (sep : List Char) : Nat → List Char → List Char → List (List Char)
  | _, [], cur => [cur]
  | 0, s, cur => [cur ++ s]
  | fuel + 1, c :: cs, cur =>
    if sep ≠ [] && listStartsWith (c :: cs) sep then
      cur :: splitOnFuel sep fuel ((c :: cs).drop sep.length) []
    else splitOnFuel sep fuel cs (cur ++ [c])

/-- strings.Split of the Go standard library (non-empty separator). -/
def goSplitOn (s sep : String) : List String :=
  (splitOnFuel sep.data s.data.length s.data []).map (fun l => String.mk l)

/-- Go conversion uint32(i) of a (64-bit) int: two's-complement

truncation, i.e. reduction mod 2^32. -/
def toUInt32Nat (i : Int) : Nat :=
  (i % 4294967296).toNat

/-- Go uint32 subtraction a - b (operands already below 2^32 in Go). -/
def u32sub (a b : Nat) : Nat :=
  (a % 4294967296 + 4294967296 - b % 4294967296) % 4294967296

/-- ASCII lower-casing of a character code, the effect of Unicode simple
folding on the ASCII strings the miner compares. -/
def charToLowerNat (n : Nat) : Nat :=
  if 65 ≤ n ∧ n ≤ 90 then n + 32 else n

/-- Character-list comparison under ASCII case folding. -/
def asciiEqFoldChars : List Char → List Char → Bool
  | [], [] => true
  | a :: as, b :: bs =>
    (charToLowerNat a.toNat = charToLowerNat b.toNat) && asciiEqFoldChars as bs
  | _, _ => false

/-- strings.EqualFold of the Go standard library, restricted to the
ASCII strings the miner compares (case-insensitive equality). -/
def asciiEqualFold (a b : String) : Bool :=
  asciiEqFoldChars a.data b.data

/-- isOpDelete from part_001 line 741: the first space-separated word of
the op string equals delete, case-insensitively. -/
def isOpDelete (s : String) : Bool :=
  asciiEqualFold ((goSplitOn s " ").headD "") "delete"

/-- parsePath from part_001 line 733: extracts the d and fill attributes
from a full svg path string; Go panics (index out of range) on strings
missing the delimiters are modelled as none. -/
def parsePath (s : String) : Option (String × String) :=
  match (goSplitOn s "d=\"")[1]? with
  | none => none
  | some b1 =>
    let bufTwo := goSplitOn b1 "\" s"
    match bufTwo[1]? with
    | none => none
    | some b2 =>
      match (goSplitOn b2 "fill=\"")[1]? with
      | none => none
      | some b3 => some (bufTwo.headD "", ((goSplitOn b3 "\"").headD ""))

/-- Loop body of verifyTrailingZeros: rem iterations remain, i is the Go
loop counter (a uint8, so the index 31-i wraps mod 256); an access past
the end of the hash is a Go panic, modelled as none. -/
def vtzGo (hash : List Char) : Nat → Nat → Option Bool
  | 0, _ => some true
  | rem + 1, i =>
    match hash[(287 - i) % 256]? with
    | none => none
    | some c => if c = '0' then vtzGo hash rem (i + 1) else some false

/-- verifyTrailingZeros from part_001 line 368 and ink-miner.go line 358:
checks that hash bytes at positions 31, 30, ... , 32-numZeros are all the
character 0. -/
def verifyTrailingZeros (hash : String) (numZeros : Nat) : Option Bool :=
  vtzGo hash.data numZeros 0

/-- Inner for-loop of GetInkTraversal (part_001 line 610): accumulate,
over the op records of an Op block, the refund (for deletes) or the cost
(for creates) of every op authored by pubKey. -/
def opRecordsInkDelta (k : PubKey) : List (String × OpRecord) → Int
  | [] => 0
  | p :: rest =>
    (if p.2.authorPubKey = k then
      (if isOpDelete p.2.op then (p.2.inkUsed : Int) else -(p.2.inkUsed : Int))
    else 0) + opRecordsInkDelta k rest

/-- Per-block contribution of the GetInkTraversal loop body (part_001
lines 601-620): NoOp blocks credit the miner the NoOp reward; Op blocks
credit the miner the Op reward and apply the per-op deltas. -/
def blockInkDelta (settings : MinerNetSettings) (k : PubKey) (b : Block) : Int :=
  if b.opRecords.isEmpty then
    (if b.minerPubKey = k then (settings.inkPerNoOpBlock : Int) else 0)
  else
    (if b.minerPubKey = k then (settings.inkPerOpBlock : Int) else 0)
      + opRecordsInkDelta k b.opRecords

/-- The tip-to-genesis for-loop of GetInkTraversal (part_001 line 600)
with an explicit accumulator; fuel bounds the walk, none models a missing
block (Go nil dereference) or a chain that never reaches genesis. -/
def getInkTraversalLoop (blocks : List (String × Block)) (genesisHash : String)
    (settings : MinerNetSettings) (k : PubKey) : String → Int → Nat → Option Int
  | h, acc, fuel =>
    if h = genesisHash then some acc
    else
      match fuel with
      | 0 => none
      | fuel + 1 =>
        match lookupBlock blocks h with
        | none => none
        | some b =>
          getInkTraversalLoop blocks genesisHash settings k b.prevHash
            (acc + blockInkDelta settings k b) fuel

/-- GetInkTraversal from part_001 line 597: the ink owned by pubKey,
derived by walking the chain from the tip back to the genesis hash. -/
def GetInkTraversal (bc : BlockChain) (settings : MinerNetSettings) (k : PubKey)
    (fuel : Nat) : Option Int :=
  getInkTraversalLoop bc.blocks settings.genesisBlockHash settings k bc.newestHash 0 fuel

/-- The tip-to-genesis ancestry of a hash: the list of stored blocks
visited before reaching the genesis hash, tip first. -/
def ancestry (blocks : List (String × Block)) (genesisHash : String) :
    String → Nat → Option (List Block)
  | h, fuel =>
    if h = genesisHash then some []
    else
      match fuel with
      | 0 => none
      | fuel + 1 =>
        match lookupBlock blocks h with
        | none => none
        | some b => (ancestry blocks genesisHash b.prevHash fuel).map (fun l => b :: l)

/-- Per-block ink contribution as the specification words it: plus the
NoOp reward when the block is NoOp and mined by k, plus the Op reward
when the block is Op and mined by k, and for each op authored by k minus
its ink for a create and plus its ink for a delete. -/
def claimBlockInk (settings : MinerNetSettings) (k : PubKey) (b : Block) : Int :=
  (if b.opRecords.isEmpty ∧ b.minerPubKey = k then (settings.inkPerNoOpBlock : Int) else 0)
    + (if ¬b.opRecords.isEmpty ∧ b.minerPubKey = k then (settings.inkPerOpBlock : Int) else 0)
    + ((b.opRecords.map (fun p =>
        if p.2.authorPubKey = k then
          (if isOpDelete p.2.op then (p.2.inkUsed : Int) else -(p.2.inkUsed : Int))
        else 0)).sum)

theorem opRecordsInkDelta_eq_sum (k : PubKey) (l : List (String × OpRecord)) :
    opRecordsInkDelta k l = (l.map (fun p =>
      if p.2.authorPubKey = k then
        (if isOpDelete p.2.op then (p.2.inkUsed : Int) else -(p.2.inkUsed : Int))
      else 0)).sum := by
  induction l with
  | nil => rfl
  | cons p rest ih => simp [opRecordsInkDelta, ih]

theorem blockInkDelta_eq_claim (settings : MinerNetSettings) (k : PubKey) (b : Block) :
    blockInkDelta settings k b = claimBlockInk settings k b := by
  rw [blockInkDelta, claimBlockInk, opRecordsInkDelta_eq_sum]
  by_cases he : b.opRecords.isEmpty
  · have hnil : b.opRecords = [] := List.isEmpty_iff.mp he
    by_cases hm : b.minerPubKey = k <;> simp [he, hm, hnil]
  · by_cases hm : b.minerPubKey = k <;> simp [he, hm]

theorem getInkTraversalLoop_eq (blocks : List (String × Block)) (genesisHash : String)
    (settings : MinerNetSettings) (k : PubKey) :
    ∀ (fuel : Nat) (h : String) (acc : Int) (l : List Block),
      ancestry blocks genesisHash h fuel = some l →
      getInkTraversalLoop blocks genesisHash settings k h acc fuel =
        some (acc + (l.map (claimBlockInk settings k)).sum) := by
  intro fuel
  induction fuel with
  | zero =>
    intro h acc l hanc
    rw [ancestry] at hanc
    by_cases hg : h = genesisHash
    · simp only [hg, if_pos rfl] at hanc
      obtain rfl : ([] : List Block) = l := Option.some.inj hanc
      simp [getInkTraversalLoop, hg]
    · simp [hg] at hanc
  | succ fuel ih =>
    intro h acc l hanc
    rw [ancestry] at hanc
    by_cases hg : h = genesisHash
    · simp only [hg, if_pos rfl] at hanc
      obtain rfl : ([] : List Block) = l := Option.some.inj hanc
      simp [getInkTraversalLoop, hg]
    · rw [if_neg hg] at hanc
      rw [getInkTraversalLoop, if_neg hg]
      cases hb : lookupBlock blocks h with
      | none => simp [hb] at hanc
      | some b =>
        simp only [hb] at hanc ⊢
        cases hl : ancestry blocks genesisHash b.prevHash fuel with
        | none => simp [hl] at hanc
        | some l' =>
          simp only [hl, Option.map_some'] at hanc
          obtain rfl : b :: l' = l := Option.some.inj hanc
          rw [ih b.prevHash (acc + blockInkDelta settings k b) l' hl]
          rw [blockInkDelta_eq_claim]
          simp only [List.map_cons, List.sum_cons]
          congr 1
          ring

/-- C3: for every key k and chain state whose tip-to-genesis traversal is
defined, the computed ink balance equals the sum, over the ancestry
blocks (tip down to but excluding genesis), of the NoOp reward for NoOp
blocks mined by k, the Op reward for Op blocks mined by k, and minus
(resp. plus) ink-used for each create (resp. delete) op authored by k,
with keys compared structurally. -/
theorem claim3_ink_balance_traversal (bc : BlockChain) (settings : MinerNetSettings)
    (k : PubKey) (fuel : Nat) (l : List Block)
    (hanc : ancestry bc.blocks settings.genesisBlockHash bc.newestHash fuel = some l) :
    GetInkTraversal bc settings k fuel =
      some ((l.map (claimBlockInk settings k)).sum) := by
  rw [GetInkTraversal, getInkTraversalLoop_eq bc.blocks settings.genesisBlockHash
    settings k fuel bc.newestHash 0 l hanc]
  simp

/-- On a 32-byte hash with at most 32 - i iterations left, the loop never
panics and succeeds exactly when the inspected positions all hold 0. -/
theorem vtzGo_spec (hash : List Char) (hlen : hash.length = 32) :
    ∀ rem i, i + rem ≤ 32 →
      (∃ b, vtzGo hash rem i = some b) ∧
      (vtzGo hash rem i = some true ↔ ∀ j, j < rem → hash[31 - (i + j)]? = some '0') := by
  intro rem
  induction rem with
  | zero =>
    intro i _
    refine ⟨⟨true, rfl⟩, ?_⟩
    simp [vtzGo]
  | succ rem ih =>
    intro i hle
    have hidx : (287 - i) % 256 = 31 - i := by omega
    have hlt : 31 - i < hash.length := by omega
    have hget : hash[(287 - i) % 256]? = some hash[31 - i] := by
      rw [hidx]
      exact List.getElem?_eq_getElem hlt
    by_cases hc : hash[31 - i] = '0'
    · have hstep : vtzGo hash (rem + 1) i = vtzGo hash rem (i + 1) := by
        simp [vtzGo, hget, hc]
      obtain ⟨hsome, hiff⟩ := ih (i + 1) (by omega)
      refine ⟨hstep ▸ hsome, ?_⟩
      rw [hstep, hiff]
      constructor
      · intro hall j hj
        match j with
        | 0 =>
          simp only [Nat.add_zero]
          rw [List.getElem?_eq_getElem hlt, hc]
        | j' + 1 =>
          have := hall j' (by omega)
          have harith : 31 - (i + 1 + j') = 31 - (i + (j' + 1)) := by omega
          rwa [harith] at this
      · intro hall j hj
        have := hall (j + 1) (by omega)
        have harith : 31 - (i + (j + 1)) = 31 - (i + 1 + j) := by omega
        rwa [harith] at this
    · have hstep : vtzGo hash (rem + 1) i = some false := by
        simp [vtzGo, hget, hc]
      refine ⟨⟨false, hstep⟩, ?_⟩
      rw [hstep]
      constructor
      · intro h
        exact absurd h (by simp)
      · intro hall
        have := hall 0 (by omega)
        simp only [Nat.add_zero] at this
        rw [List.getElem?_eq_getElem hlt] at this
        exact absurd (Option.some.inj this) hc

/-- The position-by-position condition checked by the loop coincides with
the last numZeros characters of the hash all being 0. -/
theorem vtz_positions_iff_drop (hash : List Char) (hlen : hash.length = 32)
    (d : Nat) (hd : d ≤ 32) :
    (∀ j, j < d → hash[31 - j]? = some '0') ↔
      (hash.drop (32 - d)).all (fun c => c = '0') = true := by
  rw [List.all_eq_true]
  constructor
  · intro hall x hx
    obtain ⟨m, hm⟩ := List.mem_iff_getElem?.mp hx
    have hmlt : m < (hash.drop (32 - d)).length := (List.getElem?_eq_some.mp hm).1
    rw [List.length_drop, hlen] at hmlt
    rw [List.getElem?_drop] at hm
    have hj := hall (31 - (32 - d + m)) (by omega)
    have harith : 31 - (31 - (32 - d + m)) = 32 - d + m := by omega
    rw [harith] at hj
    rw [hj] at hm
    simp only [decide_eq_true_eq]
    exact (Option.some.inj hm).symm
  · intro hall j hj
    have hlt : 32 - d + (d - 1 - j) < hash.length := by omega
    have hmem : hash[32 - d + (d - 1 - j)] ∈ hash.drop (32 - d) := by
      apply List.mem_iff_getElem?.mpr
      exact ⟨d - 1 - j, by rw [List.getElem?_drop]; exact List.getElem?_eq_getElem hlt⟩
    have := hall _ hmem
    have harith : 31 - j = 32 - d + (d - 1 - j) := by omega
    rw [harith, List.getElem?_eq_getElem hlt]
    simpa using this

/-- C10: verifyTrailingZeros is anchored to position 31.  For every hash
string of 32 characters and numZeros at most 32, every access is in
bounds and the check succeeds exactly when the last numZeros characters
are 0; for any string shorter than 32 characters and numZeros at least 1
the very first access is out of bounds (a Go panic). -/
theorem claim10_verifyTrailingZeros_anchored :
    (∀ (hash : String) (numZeros : Nat), hash.length = 32 → numZeros ≤ 32 →
      verifyTrailingZeros hash numZeros ≠ none ∧
      (verifyTrailingZeros hash numZeros = some true ↔
        (hash.data.drop (32 - numZeros)).all (fun c => c = '0') = true)) ∧
    (∀ (hash : String) (numZeros : Nat), hash.length < 32 → 1 ≤ numZeros →
      verifyTrailingZeros hash numZeros = none) := by
  constructor
  · intro hash numZeros hlen hd
    have hlen' : hash.data.length = 32 := hlen
    obtain ⟨⟨b, hb⟩, hiff⟩ := vtzGo_spec hash.data hlen' numZeros 0 (by omega)
    constructor
    · intro hnone
      rw [verifyTrailingZeros] at hnone
      rw [hnone] at hb
      exact Option.noConfusion hb
    · rw [verifyTrailingZeros, hiff]
      have := vtz_positions_iff_drop hash.data hlen' numZeros hd
      simpa using this
  · intro hash numZeros hlen hd
    match numZeros, hd with
    | rem + 1, _ =>
      have hnone : hash.data[(287 - 0) % 256]? = none := by
        apply List.getElem?_eq_none_iff.mpr
        have : hash.data.length = hash.length := rfl
        omega
      simp [verifyTrailingZeros, vtzGo, hnone]

/-- Witness for C10 at concrete inputs: a 32-character hash ending in two
zeros passes with difficulty 2, and a 3-character string panics. -/
theorem claim10_witness :
    verifyTrailingZeros "abcdef0123456789abcdef0123456700" 2 = some true ∧
    verifyTrailingZeros "abc" 1 = none := by
  constructor
  · exact (claim10_verifyTrailingZeros_anchored.1
      "abcdef0123456789abcdef0123456700" 2 (by decide) (by decide)).2.mpr (by decide)
  · exact claim10_verifyTrailingZeros_anchored.2 "abc" 1 (by decide) (by decide)

/-- GetInk from part_001 line 482 (identical in ink-miner.go line 446):
reads the traversal balance, logs when it is negative, stores uint32(ink)
into the reply and always returns a nil error.  Result: (error, reply). -/
def GetInk (bc : BlockChain) (settings : MinerNetSettings) (k : PubKey) (fuel : Nat) :
    Option (Option MinerError × Nat) :=
  match GetInkTraversal bc settings k fuel with
  | none => none
  | some ink => some (none, toUInt32Nat ink)

/-- GetShapes from part_001 line 676 (identical in ink-miner.go line 578):
on a hit the op strings are collected into a local variable that shadows
the reply pointer, so the reply is left untouched; on a miss the reply is
also untouched and INVALIDBLOCKHASH is returned. -/
def GetShapes (bc : BlockChain) (blockHash : String) (shapeHashesReply : List String) :
    Option MinerError × List String :=
  match lookupBlock bc.blocks blockHash with
  | some block =>
    let _shapeHashesLocal := block.opRecords.map (fun p => p.2.op)
    (none, shapeHashesReply)
  | none => (some MinerError.invalidBlockHash, shapeHashesReply)

/-- DisseminateOperation from part_001 line 797: hash the op; when the
hash is not pending, insert a field-by-field copy into the pending pool
and fan out once; otherwise do nothing.  Both paths return a nil error.
Result: (new pool, fanned out, error).  MD5 hashing is external, hence
the opHashFn parameter. -/
def DisseminateOperation (opHashFn : OpRecord → String)
    (pool : List (String × OpRecord)) (op : OpRecord) :
    List (String × OpRecord) × Bool × Option MinerError :=
  let opRecordHash := opHashFn op
  match lookupOp pool opRecordHash with
  | none => (pool ++ [(opRecordHash, op)], true, none)
  | some _ => (pool, false, none)

/-- Individual validity of a gossiped op as the specification words it
(bounds check, signature check, non-negative prospective ink against the
tip); stated from the spec for comparison with DisseminateOperation,
which performs none of these checks. -/
def specOpIndividuallyValid (boundsOk sigOk : OpRecord → Bool)
    (bc : BlockChain) (settings : MinerNetSettings) (fuel : Nat) (op : OpRecord) :
    Option Bool :=
  match GetInkTraversal bc settings op.authorPubKey fuel with
  | none => none
  | some bal =>
    some (boundsOk op && sigOk op &&
      decide (0 ≤ bal + (if isOpDelete op.op then (op.inkUsed : Int) else -(op.inkUsed : Int))))

/-- Concrete fixtures used by witnesses and counterexamples. -/
def kOne : PubKey := ⟨1, 1⟩

def kTwo : PubKey := ⟨2, 2⟩

def sigAlwaysTrue : PubKey → String → Int → Int → Bool := fun _ _ _ _ => true

def sigAlwaysFalse : PubKey → String → Int → Int → Bool := fun _ _ _ _ => false

def opCreateOne : OpRecord :=
  ⟨"<path d=\"M 0 0 L 20 20\" stroke=\"red\" fill=\"transparent\"/>", 20, 3, 4, kOne⟩

def opDeleteOne : OpRecord :=
  ⟨"delete <path d=\"M 0 0 L 20 20\" stroke=\"red\" fill=\"transparent\"/>", 20, 5, 6, kOne⟩

def blockOne : Block := ⟨1, "g", [("op1", opCreateOne)], kTwo, 7⟩

def blockTwo : Block := ⟨2, "h1", [], kOne, 8⟩

def bcTwoBlocks : BlockChain := ⟨[("h1", blockOne), ("h2", blockTwo)], "h2"⟩

def settingsA : MinerNetSettings := ⟨"g", 50, 10, 3, 2, 200, 200⟩

/-- Witness for C3 on a concrete two-block chain: a NoOp reward of 10 for
the tip mined by key one minus a 20-ink create in the older block gives
a balance of minus 10. -/
theorem claim3_witness :
    ancestry bcTwoBlocks.blocks settingsA.genesisBlockHash bcTwoBlocks.newestHash 5 =
      some [blockTwo, blockOne] ∧
    GetInkTraversal bcTwoBlocks settingsA kOne 5 = some (-10) := by
  refine ⟨by decide, ?_⟩
  rw [claim3_ink_balance_traversal bcTwoBlocks settingsA kOne 5 [blockTwo, blockOne] (by decide)]
  decide

theorem claim8_ink_neg_helper : GetInkTraversal bcTwoBlocks settingsA kOne 5 = some (-10) := by
  decide

/-- C8 as stated is false: uint32(ink) in Go wraps a negative balance mod
2^32 instead of flooring it at 0.  On the concrete chain the balance is
minus 10 and GetInk reports 4294967286, not 0. -/
theorem claim8_counterexample :
    GetInkTraversal bcTwoBlocks settingsA kOne 5 = some (-10) ∧
    GetInk bcTwoBlocks settingsA kOne 5 = some (none, 4294967286) ∧
    (4294967286 : Nat) ≠ 0 := by
  refine ⟨claim8_ink_neg_helper, ?_, by decide⟩
  rw [GetInk, claim8_ink_neg_helper]
  rfl

/-- C8 amended: whenever the traversal is defined GetInk returns a nil
error and the balance reduced mod 2^32; a non-negative balance below 2^32
is reported exactly, a negative balance above minus 2^32 is reported as
balance plus 2^32 (not floored at 0). -/
theorem claim8_getInk_wraps (bc : BlockChain) (settings : MinerNetSettings)
    (k : PubKey) (fuel : Nat) (i : Int)
    (htrav : GetInkTraversal bc settings k fuel = some i) :
    GetInk bc settings k fuel = some (none, toUInt32Nat i) ∧
    (0 ≤ i → i < 4294967296 → (toUInt32Nat i : Int) = i) ∧
    (i < 0 → -4294967296 < i → (toUInt32Nat i : Int) = i + 4294967296) := by
  refine ⟨by rw [GetInk, htrav], ?_, ?_⟩
  · intro h0 hlt
    rw [toUInt32Nat]
    have hmod : i % 4294967296 = i := Int.emod_eq_of_lt h0 hlt
    rw [hmod, Int.toNat_of_nonneg h0]
  · intro hneg hgt
    rw [toUInt32Nat]
    have h0 : 0 ≤ i % 4294967296 := Int.emod_nonneg i (by norm_num)
    rw [Int.toNat_of_nonneg h0]
    omega

/-- Witness for the amended C8 at a positive balance: key two earned the
Op-block reward of 50 and GetInk reports exactly 50. -/
theorem claim8_witness :
    GetInk bcTwoBlocks settingsA kTwo 5 = some (none, 50) := by
  have h := (claim8_getInk_wraps bcTwoBlocks settingsA kTwo 5 50 (by decide)).1
  rw [h]
  decide

/-- C9: the claim is right and the code is wrong: on a stored hash the
handler builds the op-string list into a shadowing local and returns a
nil error with the reply untouched; the miss path behaves as claimed. -/
theorem claim9_getShapes_shadowed :
    GetShapes bcTwoBlocks "h1" [] = (none, []) ∧
    blockOne.opRecords.map (fun p => p.2.op) =
      ["<path d=\"M 0 0 L 20 20\" stroke=\"red\" fill=\"transparent\"/>"] ∧
    (["<path d=\"M 0 0 L 20 20\" stroke=\"red\" fill=\"transparent\"/>"] : List String) ≠ [] ∧
    GetShapes bcTwoBlocks "zz" [] = (some MinerError.invalidBlockHash, []) := by
  refine ⟨by decide, by decide, by decide, by decide⟩

theorem lookupOp_append_fresh (pool : List (String × OpRecord)) (h : String) (op : OpRecord)
    (hnone : lookupOp pool h = none) :
    lookupOp (pool ++ [(h, op)]) h = some op := by
  induction pool with
  | nil => simp [lookupOp]
  | cons p rest ih =>
    by_cases hp : p.1 = h
    · rw [lookupOp, if_pos hp] at hnone
      exact Option.noConfusion hnone
    · rw [lookupOp, if_neg hp] at hnone
      rw [List.cons_append, lookupOp, if_neg hp]
      exact ih hnone

/-- C7 as stated is false: DisseminateOperation performs no validity
check.  The concrete create op has a negative prospective ink balance
against the empty chain, so it is invalid in the sense of the spec, yet
it is inserted into the pending pool and fanned out. -/
theorem claim7_counterexample :
    specOpIndividuallyValid (fun _ => true) (fun _ => true)
      ⟨[], "g"⟩ settingsA 5 opCreateOne = some false ∧
    DisseminateOperation (fun _ => "oh") [] opCreateOne =
      ([("oh", opCreateOne)], true, none) ∧
    ([("oh", opCreateOne)] : List (String × OpRecord)) ≠ [] := by
  refine ⟨by decide, by decide, by decide⟩

/-- C7 amended: a received op is inserted and fanned out exactly when its
hash is not already pending, with no validity check of any kind; a
duplicate leaves the pool unchanged and is not forwarded; no error is
returned in either case. -/
theorem claim7_disseminate_no_validation (opHashFn : OpRecord → String)
    (pool : List (String × OpRecord)) (op : OpRecord) :
    ((DisseminateOperation opHashFn pool op).2.2 = none) ∧
    (lookupOp pool (opHashFn op) = none →
      DisseminateOperation opHashFn pool op =
        (pool ++ [(opHashFn op, op)], true, none) ∧
      lookupOp (DisseminateOperation opHashFn pool op).1 (opHashFn op) = some op) ∧
    (∀ x, lookupOp pool (opHashFn op) = some x →
      DisseminateOperation opHashFn pool op = (pool, false, none)) := by
  refine ⟨?_, ?_, ?_⟩
  · rw [DisseminateOperation]
    cases hl : lookupOp pool (opHashFn op) <;> simp [hl]
  · intro hnone
    constructor
    · rw [DisseminateOperation]
      simp [hnone]
    · rw [DisseminateOperation]
      simp only [hnone]
      exact lookupOp_append_fresh pool (opHashFn op) op hnone
  · intro x hx
    rw [DisseminateOperation]
    simp [hx]

/-- Witness for the amended C7: inserting a fresh op into the empty pool
and dropping the duplicate on re-receipt. -/
theorem claim7_witness :
    DisseminateOperation (fun _ => "oh") [] opCreateOne =
      ([("oh", opCreateOne)], true, none) ∧
    DisseminateOperation (fun _ => "oh") [("oh", opCreateOne)] opCreateOne =
      ([("oh", opCreateOne)], false, none) := by
  constructor
  · exact ((claim7_disseminate_no_validation (fun _ => "oh") [] opCreateOne).2.1 (by decide)).1
  · exact (claim7_disseminate_no_validation (fun _ => "oh")
      [("oh", opCreateOne)] opCreateOne).2.2 opCreateOne (by decide)

/-- Tip-to-genesis loop of GetOpRecordTraversal (part_001 line 583): the
first block containing the shape hash among its op records yields the
record and the containing block hash; reaching genesis yields not-found
(the Go function returns an empty record and false). -/
def getOpRecordLoop (blocks : List (String × Block)) (genesisHash shapeHash : String) :
    String → Nat → Option (Option (OpRecord × String))
  | h, fuel =>
    if h = genesisHash then some none
    else
      match fuel with
      | 0 => none
      | fuel + 1 =>
        match lookupBlock blocks h with
        | none => none
        | some b =>
          if ¬b.opRecords.isEmpty then
            match lookupOp b.opRecords shapeHash with
            | some r => some (some (r, h))
            | none => getOpRecordLoop blocks genesisHash shapeHash b.prevHash fuel
          else getOpRecordLoop blocks genesisHash shapeHash b.prevHash fuel

/-- GetOpRecordTraversal from part_001 line 583, starting at the tip. -/
def GetOpRecordTraversal (bc : BlockChain) (genesisHash shapeHash : String) (fuel : Nat) :
    Option (Option (OpRecord × String)) :=
  getOpRecordLoop bc.blocks genesisHash shapeHash bc.newestHash fuel

/-- VerifyOpRecordAuthor from part_001 line 576: structural equality of
the requestor key with the record's author key, and ECDSA verification
of the op string under that key (the sigVerify parameter models the
external crypto/ecdsa collaborator). -/
def VerifyOpRecordAuthor (sigVerify : PubKey → String → Int → Int → Bool)
    (requestorPublicKey : PubKey) (opRecord : OpRecord) : Bool :=
  requestorPublicKey = opRecord.authorPubKey &&
    sigVerify opRecord.authorPubKey opRecord.op opRecord.opSigR opRecord.opSigS

/-- Observable outcome of the DeleteShape handler up to the enqueue of
the new delete operation (the later N-confirmation wait is a separate
concern, claim C6). -/
inductive DeleteShapeOutcome where
  | shapeOwnerError
  | enqueued (newOp : String) (inkRefunded : Nat)
deriving DecidableEq, Repr

/-- DeleteShape from part_001 line 500: look the shape hash up in the
tip's ancestry; when found and VerifyOpRecordAuthor accepts, build the
op string delete-space followed by the original full path and enqueue
it with the original ink as refund; otherwise return SHAPEOWNER. -/
def DeleteShape (sigVerify : PubKey → String → Int → Int → Bool) (bc : BlockChain)
    (genesisHash : String) (k : PubKey) (shapeHash : String) (fuel : Nat) :
    Option DeleteShapeOutcome :=
  match GetOpRecordTraversal bc genesisHash shapeHash fuel with
  | none => none
  | some none => some DeleteShapeOutcome.shapeOwnerError
  | some (some (opRecord, _)) =>
    if VerifyOpRecordAuthor sigVerify k opRecord then
      some (DeleteShapeOutcome.enqueued ("delete " ++ opRecord.op) opRecord.inkUsed)
    else some DeleteShapeOutcome.shapeOwnerError

/-- C5 as stated is false: DeleteShape requires VerifyOpRecordAuthor,
which checks the signature in addition to key equality.  On the concrete
chain the op is found and authored by the requesting key, yet with a
non-verifying signature SHAPEOWNER is returned. -/
theorem claim5_counterexample :
    GetOpRecordTraversal bcTwoBlocks "g" "op1" 5 = some (some (opCreateOne, "h1")) ∧
    opCreateOne.authorPubKey = kOne ∧
    DeleteShape sigAlwaysFalse bcTwoBlocks "g" kOne "op1" 5 =
      some DeleteShapeOutcome.shapeOwnerError := by
  refine ⟨by decide, by decide, by decide⟩

/-- C5 amended: when the shape hash is not found SHAPEOWNER is returned;
when it resolves to a record, the delete op (the string delete-space plus
the original full path) is enqueued exactly when the author key equals
the requester's key and the record's signature verifies under it, and
SHAPEOWNER is returned otherwise. -/
theorem claim5_deleteShape_owner (sigVerify : PubKey → String → Int → Int → Bool)
    (bc : BlockChain) (genesisHash : String) (k : PubKey) (shapeHash : String) (fuel : Nat) :
    (GetOpRecordTraversal bc genesisHash shapeHash fuel = some none →
      DeleteShape sigVerify bc genesisHash k shapeHash fuel =
        some DeleteShapeOutcome.shapeOwnerError) ∧
    (∀ r bh, GetOpRecordTraversal bc genesisHash shapeHash fuel = some (some (r, bh)) →
      ((DeleteShape sigVerify bc genesisHash k shapeHash fuel =
          some (DeleteShapeOutcome.enqueued ("delete " ++ r.op) r.inkUsed)) ↔
        (k = r.authorPubKey ∧
          sigVerify r.authorPubKey r.op r.opSigR r.opSigS = true)) ∧
      (¬(k = r.authorPubKey ∧ sigVerify r.authorPubKey r.op r.opSigR r.opSigS = true) →
        DeleteShape sigVerify bc genesisHash k shapeHash fuel =
          some DeleteShapeOutcome.shapeOwnerError)) := by
  constructor
  · intro hnone
    rw [DeleteShape, hnone]
  · intro r bh hfound
    have hauth : VerifyOpRecordAuthor sigVerify k r = true ↔
        (k = r.authorPubKey ∧ sigVerify r.authorPubKey r.op r.opSigR r.opSigS = true) := by
      rw [VerifyOpRecordAuthor]
      simp
    constructor
    · simp only [DeleteShape, hfound]
      by_cases hv : VerifyOpRecordAuthor sigVerify k r = true
      · rw [if_pos hv]
        exact iff_of_true rfl (hauth.mp hv)
      · rw [if_neg hv]
        apply iff_of_false
        · intro hcontra
          exact DeleteShapeOutcome.noConfusion (Option.some.inj hcontra)
        · intro hand
          exact hv (hauth.mpr hand)
    · intro hnot
      simp only [DeleteShape, hfound]
      have hv : VerifyOpRecordAuthor sigVerify k r ≠ true := fun hc => hnot (hauth.mp hc)
      rw [if_neg hv]

/-- Witness for the amended C5: with a verifying signature the delete of
the concrete shape authored by key one is enqueued with the expected op
string and refund. -/
theorem claim5_witness :
    DeleteShape sigAlwaysTrue bcTwoBlocks "g" kOne "op1" 5 =
      some (DeleteShapeOutcome.enqueued
        ("delete " ++ opCreateOne.op) opCreateOne.inkUsed) := by
  exact ((claim5_deleteShape_owner sigAlwaysTrue bcTwoBlocks "g" kOne "op1" 5).2
    opCreateOne "h1" (by decide)).1.mpr (by decide)

/-- Observable outcome of one polling check of IsValidatedByValidateNum
against a fixed chain and pending-pool snapshot: success with the
containing block hash, definitive failure, or keep waiting (the Go loop
sleeps and retries). -/
inductive ValidateOutcome where
  | success (blockHash : String)
  | failure
  | keepWaiting
deriving DecidableEq, Repr

/-- One check of IsValidatedByValidateNum (part_001 line 549): while the
op hash is still pending the outer loop waits; once it left the pool, a
found record succeeds when the uint32 difference of the tip block number
and the containing block number is at least validateNum and
VerifyOpRecordAuthor accepts the caller, a missing record fails, and
anything else waits.  validateNum is a Go uint8. -/
def validateNumCheck (sigVerify : PubKey → String → Int → Int → Bool) (bc : BlockChain)
    (genesisHash : String) (k : PubKey) (validateNum : Nat) (opRecordHash : String)
    (pool : List (String × OpRecord)) (fuel : Nat) : Option ValidateOutcome :=
  if (lookupOp pool opRecordHash).isSome then some ValidateOutcome.keepWaiting
  else
    match GetOpRecordTraversal bc genesisHash opRecordHash fuel with
    | none => none
    | some none => some ValidateOutcome.failure
    | some (some (opRecord, blockHash)) =>
      match lookupBlock bc.blocks blockHash, lookupBlock bc.blocks bc.newestHash with
      | some opBlock, some newestBlock =>
        if u32sub newestBlock.blockNum opBlock.blockNum ≥ validateNum then
          if VerifyOpRecordAuthor sigVerify k opRecord then
            some (ValidateOutcome.success blockHash)
          else some ValidateOutcome.keepWaiting
        else some ValidateOutcome.keepWaiting
      | _, _ => none

/-- C6: a polling check succeeds, yielding the containing block hash,
only when the hash has left the pending pool, the record is found in the
tip's ancestry, the block-number difference meets validateNum (stated
with mathematical subtraction under the uint32 range conditions), and
the containing op's author is the caller; and once the hash has left the
pool a record missing from the ancestry is a definitive failure. -/
theorem claim6_validate_num (sigVerify : PubKey → String → Int → Int → Bool)
    (bc : BlockChain) (genesisHash : String) (k : PubKey) (validateNum : Nat)
    (opRecordHash : String) (pool : List (String × OpRecord)) (fuel : Nat) :
    (∀ bh, validateNumCheck sigVerify bc genesisHash k validateNum opRecordHash pool fuel =
        some (ValidateOutcome.success bh) →
      lookupOp pool opRecordHash = none ∧
      ∃ r opBlock newestBlock,
        GetOpRecordTraversal bc genesisHash opRecordHash fuel = some (some (r, bh)) ∧
        lookupBlock bc.blocks bh = some opBlock ∧
        lookupBlock bc.blocks bc.newestHash = some newestBlock ∧
        k = r.authorPubKey ∧
        (opBlock.blockNum ≤ newestBlock.blockNum → newestBlock.blockNum < 4294967296 →
          newestBlock.blockNum - opBlock.blockNum ≥ validateNum)) ∧
    (lookupOp pool opRecordHash = none →
      GetOpRecordTraversal bc genesisHash opRecordHash fuel = some none →
      validateNumCheck sigVerify bc genesisHash k validateNum opRecordHash pool fuel =
        some ValidateOutcome.failure) := by
  constructor
  · intro bh hsucc
    rw [validateNumCheck] at hsucc
    cases hpool : lookupOp pool opRecordHash with
    | some x => rw [hpool] at hsucc; simp at hsucc
    | none =>
    rw [hpool] at hsucc
    simp only [Option.isSome_none, Bool.false_eq_true, if_false] at hsucc
    refine ⟨rfl, ?_⟩
    cases htrav : GetOpRecordTraversal bc genesisHash opRecordHash fuel with
    | none => rw [htrav] at hsucc; exact Option.noConfusion hsucc
    | some inner =>
    rw [htrav] at hsucc
    cases inner with
    | none => simp at hsucc
    | some pr =>
    obtain ⟨r, containing⟩ := pr
    simp only at hsucc
    cases hob : lookupBlock bc.blocks containing with
    | none => rw [hob] at hsucc; simp at hsucc
    | some opBlock =>
    cases hnb : lookupBlock bc.blocks bc.newestHash with
    | none => rw [hob, hnb] at hsucc; simp at hsucc
    | some newestBlock =>
    rw [hob, hnb] at hsucc
    simp only at hsucc
    by_cases hge : u32sub newestBlock.blockNum opBlock.blockNum ≥ validateNum
    · rw [if_pos hge] at hsucc
      by_cases hv : VerifyOpRecordAuthor sigVerify k r = true
      · rw [if_pos hv] at hsucc
        have hbh : containing = bh := by
          have := Option.some.inj hsucc
          exact ValidateOutcome.success.inj this
        subst hbh
        refine ⟨r, opBlock, newestBlock, rfl, hob, rfl, ?_, ?_⟩
        · rw [VerifyOpRecordAuthor] at hv
          simp only [Bool.and_eq_true, decide_eq_true_eq] at hv
          exact hv.1
        · intro hle hlt
          rw [u32sub] at hge
          have hmod1 : newestBlock.blockNum % 4294967296 = newestBlock.blockNum :=
            Nat.mod_eq_of_lt hlt
          have hmod2 : opBlock.blockNum % 4294967296 = opBlock.blockNum :=
            Nat.mod_eq_of_lt (by omega)
          rw [hmod1, hmod2] at hge
          omega
      · simp only [Bool.not_eq_true] at hv
        rw [hv] at hsucc
        simp at hsucc
    · rw [if_neg hge] at hsucc
      simp at hsucc
  · intro hpool htrav
    rw [validateNumCheck, hpool]
    simp only [Option.isSome_none, Bool.false_eq_true, if_false]
    rw [htrav]

/-- Witness for C6 on the concrete chain: op1 sits one block below the
tip, so with validateNum 1 and a verifying signature the check succeeds
with the containing block hash, and the stated conditions hold there. -/
theorem claim6_witness :
    validateNumCheck sigAlwaysTrue bcTwoBlocks "g" kOne 1 "op1" [] 5 =
      some (ValidateOutcome.success "h1") ∧
    lookupOp [] "op1" = none ∧
    (∃ r opBlock newestBlock,
      GetOpRecordTraversal bcTwoBlocks "g" "op1" 5 = some (some (r, "h1")) ∧
      lookupBlock bcTwoBlocks.blocks "h1" = some opBlock ∧
      lookupBlock bcTwoBlocks.blocks bcTwoBlocks.newestHash = some newestBlock ∧
      kOne = r.authorPubKey ∧
      (opBlock.blockNum ≤ newestBlock.blockNum → newestBlock.blockNum < 4294967296 →
        newestBlock.blockNum - opBlock.blockNum ≥ 1)) := by
  refine ⟨by decide, ?_⟩
  exact (claim6_validate_num sigAlwaysTrue bcTwoBlocks "g" kOne 1 "op1" [] 5).1
    "h1" (by decide)

/-- In-place removal of slice element i performed by the Go expression
append(allShapes to i, allShapes from i+1 onward): the backing array b
keeps its length, the elements of the current slice (length n) shift
left from position i, and positions from n-1 onward keep their old
values. -/
def removeOnce (b : List String) (n i : Nat) : List String :=
  b.take i ++ ((b.take n).drop (i + 1)) ++ b.drop (n - 1)

/-- Inner for-loop of removeShapesDeleted over shapesToDelete: each match
of the captured svgShape removes the element at index i again; slicing
past the current length n is a Go panic (none). -/
def removeInnerLoop (svgShape : String) (i : Nat) :
    List String → Nat → List String → Option (List String × Nat)
  | b, n, [] => some (b, n)
  | b, n, d :: ds =>
    if svgShape = d then
      if i + 1 ≤ n then removeInnerLoop svgShape i (removeOnce b n i) (n - 1) ds
      else none
    else removeInnerLoop svgShape i b n ds

/-- Outer range loop of removeShapesDeleted: Go's range captures the
original slice header, so the loop visits the original index range while
reading the shared, mutated backing array. -/
def removeOuterLoop (shapesToDelete : List String) :
    Nat → List String → Nat → Nat → Option (List String × Nat)
  | 0, b, n, _ => some (b, n)
  | rem + 1, b, n, i =>
    match b[i]? with
    | none => none
    | some svgShape =>
      match removeInnerLoop svgShape i b n shapesToDelete with
      | none => none
      | some (b2, n2) => removeOuterLoop shapesToDelete rem b2 n2 (i + 1)

/-- removeShapesDeleted from part_001 line 721: removes (with Go's
remove-while-ranging aliasing) every string of shapesToDelete from
allShapes. -/
def removeShapesDeleted (allShapes shapesToDelete : List String) : Option (List String) :=
  match removeOuterLoop shapesToDelete allShapes.length allShapes allShapes.length 0 with
  | none => none
  | some (b, n) => some (b.take n)

/-- First for-loop of getShapesFromOpRecords (part_001 line 644): split
the other-author ops of one block into drawn paths and deletion targets,
in iteration order. -/
def collectShapesLoop (k : PubKey) (acc : List String × List String) :
    List (String × OpRecord) → Option (List String × List String)
  | [] => some acc
  | p :: rest =>
    if p.2.authorPubKey = k then collectShapesLoop k acc rest
    else
      match parsePath p.2.op with
      | none => none
      | some pf =>
        if isOpDelete p.2.op then collectShapesLoop k (acc.1, acc.2 ++ [pf.1]) rest
        else collectShapesLoop k (acc.1 ++ [pf.1], acc.2) rest

/-- getShapesFromOpRecords from part_001 line 641: the d-attribute paths
of one block's creates by authors other than k, with the deletion
targets found in that same block removed. -/
def getShapesFromOpRecords (opRecords : List (String × OpRecord)) (k : PubKey) :
    Option (List String) :=
  match collectShapesLoop k ([], []) opRecords with
  | none => none
  | some (creates, dels) => removeShapesDeleted creates dels

/-- Tip-to-genesis loop of GetShapeTraversal (part_001 line 630):
append each non-empty block's visible shapes in traversal order. -/
def getShapeTraversalLoop (blocks : List (String × Block)) (genesisHash : String)
    (k : PubKey) : String → List String → Nat → Option (List String)
  | h, acc, fuel =>
    if h = genesisHash then some acc
    else
      match fuel with
      | 0 => none
      | fuel + 1 =>
        match lookupBlock blocks h with
        | none => none
        | some b =>
          if ¬b.opRecords.isEmpty then
            match getShapesFromOpRecords b.opRecords k with
            | none => none
            | some s => getShapeTraversalLoop blocks genesisHash k b.prevHash (acc ++ s) fuel
          else getShapeTraversalLoop blocks genesisHash k b.prevHash acc fuel

/-- GetShapeTraversal from part_001 line 627: all canvas shapes except
those drawn by pubKey, derived from the tip's ancestry. -/
def GetShapeTraversal (bc : BlockChain) (genesisHash : String) (k : PubKey)
    (fuel : Nat) : Option (List String) :=
  getShapeTraversalLoop bc.blocks genesisHash k bc.newestHash [] fuel

/-- Deletion targets (parsed d attributes) of every delete op of one
block, as the claim words it. -/
def blockDeleteTargets : List (String × OpRecord) → Option (List String)
  | [] => some []
  | p :: rest =>
    match blockDeleteTargets rest with
    | none => none
    | some ds =>
      if isOpDelete p.2.op then
        match parsePath p.2.op with
        | none => none
        | some pf => some (pf.1 :: ds)
      else some ds

/-- Parsed d attributes of the create ops of one block authored by keys
other than k, as the claim words it. -/
def blockOtherCreates (k : PubKey) : List (String × OpRecord) → Option (List String)
  | [] => some []
  | p :: rest =>
    match blockOtherCreates k rest with
    | none => none
    | some cs =>
      if p.2.authorPubKey = k then some cs
      else if isOpDelete p.2.op then some cs
      else
        match parsePath p.2.op with
        | none => none
        | some pf => some (pf.1 :: cs)

/-- Canvas shapes visible to k as the claim words it: over the ancestry
tip-first, every other-author create polyline, minus every shape that is
the deletion target of a delete op in the same or a later (closer to the
tip) block anywhere in the ancestry. -/
def canvasShapesSpecAux (k : PubKey) (laterDeletes : List String) :
    List Block → Option (List String)
  | [] => some []
  | b :: rest =>
    match blockDeleteTargets b.opRecords with
    | none => none
    | some dsHere =>
      match blockOtherCreates k b.opRecords with
      | none => none
      | some cs =>
        match canvasShapesSpecAux k (laterDeletes ++ dsHere) rest with
        | none => none
        | some tail =>
          some ((cs.filter (fun s => !((laterDeletes ++ dsHere).contains s))) ++ tail)

/-- Claim-side canvas-shape set for comparison with GetShapeTraversal. -/
def canvasShapesSpec (k : PubKey) (l : List Block) : Option (List String) :=
  canvasShapesSpecAux k [] l

/-- Implementation-side restatement of the traversal as a fold:
concatenation over the ancestry of each non-empty block's
getShapesFromOpRecords result.  Used only as a stepping stone between
the accumulator loop and the claim-side characterization below. -/
def perBlockCanvas (k : PubKey) : List Block → Option (List String)
  | [] => some []
  | b :: rest =>
    if b.opRecords.isEmpty then perBlockCanvas k rest
    else
      match getShapesFromOpRecords b.opRecords k with
      | none => none
      | some s =>
        match perBlockCanvas k rest with
        | none => none
        | some t => some (s ++ t)

/-- Deletion targets (parsed d attributes) of the delete ops recorded in
one block by authors other than k, stated independently of the
implementation's collector for the amended claim. -/
def blockOtherDeleteTargets (k : PubKey) : List (String × OpRecord) → Option (List String)
  | [] => some []
  | p :: rest =>
    match blockOtherDeleteTargets k rest with
    | none => none
    | some ds =>
      if p.2.authorPubKey = k then some ds
      else if isOpDelete p.2.op then
        match parsePath p.2.op with
        | none => none
        | some pf => some (pf.1 :: ds)
      else some ds

/-- At most one create of the block matches a same-block deletion target,
and every create occurs at most once among the targets.  Outside this
regime Go's remove-while-ranging removal skips the element shifted into
a removed slot, so the clean creates-minus-targets reading fails. -/
def simpleDeletionPattern (cs ds : List String) : Bool :=
  decide ((cs.filter (fun s => ds.contains s)).length ≤ 1) &&
    cs.all (fun s => decide (ds.count s ≤ 1))

/-- The simple-deletion-pattern condition read off a block. -/
def blockSimplePattern (k : PubKey) (b : Block) : Bool :=
  match blockOtherCreates k b.opRecords, blockOtherDeleteTargets k b.opRecords with
  | some cs, some ds => simpleDeletionPattern cs ds
  | _, _ => true

/-- Claim-side canvas: concatenation, tip to genesis, of each block's
other-author create polylines minus the ones matching an other-author
deletion target recorded in that same block. -/
def canvasPerBlockSpec (k : PubKey) : List Block → Option (List String)
  | [] => some []
  | b :: rest =>
    match blockOtherCreates k b.opRecords, blockOtherDeleteTargets k b.opRecords,
        canvasPerBlockSpec k rest with
    | some cs, some ds, some tail =>
        some (cs.filter (fun s => !(ds.contains s)) ++ tail)
    | _, _, _ => none

theorem removeInnerLoop_no_match (svgShape : String) (i : Nat) :
    ∀ (ds b : List String) (n : Nat), svgShape ∉ ds →
      removeInnerLoop svgShape i b n ds = some (b, n) := by
  intro ds
  induction ds with
  | nil => intro b n _; rfl
  | cons d ds ih =>
    intro b n hnm
    have hne : ¬svgShape = d := fun he => hnm (he ▸ List.mem_cons_self d ds)
    rw [removeInnerLoop, if_neg hne]
    exact ih b n (fun hm => hnm (List.mem_cons_of_mem d hm))

theorem removeInnerLoop_single (svgShape : String) (i : Nat) :
    ∀ (ds b : List String) (n : Nat), ds.count svgShape = 1 → i + 1 ≤ n →
      removeInnerLoop svgShape i b n ds = some (removeOnce b n i, n - 1) := by
  intro ds
  induction ds with
  | nil => intro b n hc _; simp [List.count_nil] at hc
  | cons d ds ih =>
    intro b n hc hle
    rw [List.count_cons] at hc
    rw [removeInnerLoop]
    by_cases he : svgShape = d
    · rw [if_pos he, if_pos hle]
      have hd : (d == svgShape) = true := by simp [he]
      rw [hd] at hc
      simp only [if_true] at hc
      have h0 : ds.count svgShape = 0 := by omega
      have hnm : svgShape ∉ ds := by
        intro hm
        have := List.count_pos_iff.mpr hm
        omega
      exact removeInnerLoop_no_match svgShape i ds (removeOnce b n i) (n - 1) hnm
    · rw [if_neg he]
      have hd : (d == svgShape) = false := by
        simp only [beq_eq_false_iff_ne, ne_eq]
        exact fun hdd => he hdd.symm
      rw [hd] at hc
      simp only [Bool.false_eq_true, if_false] at hc
      exact ih b n (by omega) hle

theorem removeOuterLoop_no_match (ds : List String) :
    ∀ (rem i : Nat) (b : List String) (n : Nat),
      (∀ m, m < rem → ∃ y, b[i + m]? = some y ∧ y ∉ ds) →
      removeOuterLoop ds rem b n i = some (b, n) := by
  intro rem
  induction rem with
  | zero => intro i b n _; rfl
  | succ rem ih =>
    intro i b n hreads
    obtain ⟨y, hy, hynm⟩ := hreads 0 (Nat.succ_pos rem)
    rw [Nat.add_zero] at hy
    rw [removeOuterLoop]
    simp only [hy]
    rw [removeInnerLoop_no_match y i ds b n hynm]
    show removeOuterLoop ds rem b n (i + 1) = some (b, n)
    apply ih
    intro m hm
    obtain ⟨y2, hy2, h2⟩ := hreads (m + 1) (by omega)
    refine ⟨y2, ?_, h2⟩
    rw [show i + 1 + m = i + (m + 1) by omega]
    exact hy2

theorem removeOuterLoop_append (ds : List String) :
    ∀ (r1 r2 i : Nat) (b : List String) (n : Nat),
      removeOuterLoop ds (r1 + r2) b n i =
        match removeOuterLoop ds r1 b n i with
        | none => none
        | some (b2, n2) => removeOuterLoop ds r2 b2 n2 (i + r1) := by
  intro r1
  induction r1 with
  | zero =>
    intro r2 i b n
    simp [removeOuterLoop]
  | succ r1 ih =>
    intro r2 i b n
    rw [show r1 + 1 + r2 = (r1 + r2) + 1 by omega]
    cases hread : b[i]? with
    | none => simp only [removeOuterLoop, hread]
    | some svg =>
      simp only [removeOuterLoop, hread]
      cases hin : removeInnerLoop svg i b n ds with
      | none => simp
      | some st =>
        obtain ⟨b2, n2⟩ := st
        simp only
        rw [ih r2 (i + 1) b2 n2]
        rw [show i + 1 + r1 = i + (r1 + 1) by omega]

theorem filter_singleton_split (p : String → Bool) :
    ∀ (cs : List String) (x : String), cs.filter p = [x] →
      ∃ pre suf, cs = pre ++ x :: suf ∧
        (∀ y ∈ pre, p y = false) ∧ (∀ y ∈ suf, p y = false) := by
  intro cs
  induction cs with
  | nil => intro x h; simp at h
  | cons c cs ih =>
    intro x h
    by_cases hc : p c
    · rw [List.filter_cons_of_pos hc] at h
      have hcx : c = x := (List.cons.inj h).1
      have hnil : cs.filter p = [] := (List.cons.inj h).2
      refine ⟨[], cs, by simp [hcx], by simp, ?_⟩
      intro y hy
      by_contra hpy
      have hmem : y ∈ cs.filter p :=
        List.mem_filter.mpr ⟨hy, by simpa using hpy⟩
      rw [hnil] at hmem
      exact absurd hmem (List.not_mem_nil y)
    · rw [List.filter_cons_of_neg hc] at h
      obtain ⟨pre, suf, hsplit, hpre, hsuf⟩ := ih x h
      refine ⟨c :: pre, suf, by simp [hsplit], ?_, hsuf⟩
      intro y hy
      rcases List.mem_cons.mp hy with h1 | h2
      · subst h1
        exact Bool.eq_false_iff.mpr hc
      · exact hpre y h2

/-- Under the simple deletion pattern the remove-while-ranging loop is
exact: it returns the creates with the single matching element removed
(or all of them when nothing matches), never panicking. -/
theorem removeShapesDeleted_simple (cs ds : List String)
    (hsimple : simpleDeletionPattern cs ds = true) :
    removeShapesDeleted cs ds = some (cs.filter (fun s => !(ds.contains s))) := by
  rw [simpleDeletionPattern, Bool.and_eq_true] at hsimple
  obtain ⟨hlenD, hcountD⟩ := hsimple
  have hlen : (cs.filter (fun s => ds.contains s)).length ≤ 1 := of_decide_eq_true hlenD
  have hcount : ∀ s ∈ cs, ds.count s ≤ 1 := by
    intro s hs
    exact of_decide_eq_true (List.all_eq_true.mp hcountD s hs)
  cases hf : cs.filter (fun s => ds.contains s) with
  | nil =>
    have hall : ∀ y ∈ cs, y ∉ ds := by
      intro y hy hmem
      have hyf : y ∈ cs.filter (fun s => ds.contains s) :=
        List.mem_filter.mpr ⟨hy, List.elem_iff.mpr hmem⟩
      rw [hf] at hyf
      exact absurd hyf (List.not_mem_nil y)
    have houter : removeOuterLoop ds cs.length cs cs.length 0 = some (cs, cs.length) := by
      apply removeOuterLoop_no_match
      intro m hm
      rw [Nat.zero_add]
      exact ⟨cs[m], List.getElem?_eq_getElem hm, hall cs[m] (List.getElem_mem hm)⟩
    rw [removeShapesDeleted, houter]
    simp only [List.take_length]
    congr 1
    symm
    apply List.filter_eq_self.mpr
    intro y hy
    simpa using hall y hy
  | cons x tail =>
    have htail : tail = [] := by
      rw [hf, List.length_cons] at hlen
      exact List.length_eq_zero.mp (by omega)
    subst htail
    obtain ⟨pre, suf, hsplit, hpre, hsuf⟩ := filter_singleton_split _ cs x hf
    subst hsplit
    have hpre2 : ∀ y ∈ pre, ds.contains y = false := hpre
    have hsuf2 : ∀ y ∈ suf, ds.contains y = false := hsuf
    have hprenm : ∀ y ∈ pre, y ∉ ds := by
      intro y hy hmem
      have hct : ds.contains y = true := List.elem_iff.mpr hmem
      have hcf := hpre2 y hy
      rw [hct] at hcf
      exact Bool.noConfusion hcf
    have hsufnm : ∀ y ∈ suf, y ∉ ds := by
      intro y hy hmem
      have hct : ds.contains y = true := List.elem_iff.mpr hmem
      have hcf := hsuf2 y hy
      rw [hct] at hcf
      exact Bool.noConfusion hcf
    have hxcont : ds.contains x = true := by
      have hxf : x ∈ (pre ++ x :: suf).filter (fun s => ds.contains s) := by
        rw [hf]
        exact List.mem_cons_self x []
      exact (List.mem_filter.mp hxf).2
    have hxcount : ds.count x = 1 := by
      have h1 : 0 < ds.count x := List.count_pos_iff.mpr (List.elem_iff.mp hxcont)
      have h2 : ds.count x ≤ 1 := hcount x (by simp)
      omega
    have hL : (pre ++ x :: suf).length = pre.length + (1 + suf.length) := by
      rw [List.length_append, List.length_cons]
      omega
    have hx0 : (pre ++ x :: suf)[0 + pre.length]? = some x := by
      rw [Nat.zero_add, List.getElem?_append_right (Nat.le_refl pre.length)]
      simp
    have hinner := removeInnerLoop_single x (0 + pre.length) ds (pre ++ x :: suf)
      (pre.length + (1 + suf.length)) hxcount (by omega)
    have hb2 : removeOnce (pre ++ x :: suf) (pre.length + (1 + suf.length)) (0 + pre.length) =
        pre ++ (suf ++ (x :: suf).drop suf.length) := by
      rw [removeOnce, Nat.zero_add]
      rw [List.take_of_length_le (le_of_eq hL)]
      rw [show pre.length + (1 + suf.length) - 1 = pre.length + suf.length by omega]
      rw [List.take_left, List.drop_append 1, List.drop_append suf.length]
      simp [List.append_assoc]
    have hseg1 : removeOuterLoop ds pre.length (pre ++ x :: suf)
        (pre.length + (1 + suf.length)) 0 =
        some (pre ++ x :: suf, pre.length + (1 + suf.length)) := by
      apply removeOuterLoop_no_match
      intro m hm
      rw [Nat.zero_add]
      have hb : (pre ++ x :: suf)[m]? = pre[m]? := List.getElem?_append_left hm
      exact ⟨pre[m], by rw [hb]; exact List.getElem?_eq_getElem hm,
        hprenm pre[m] (List.getElem_mem hm)⟩
    have hseg3 : removeOuterLoop ds suf.length (pre ++ (suf ++ (x :: suf).drop suf.length))
        (pre.length + (1 + suf.length) - 1) (0 + pre.length + 1) =
        some (pre ++ (suf ++ (x :: suf).drop suf.length),
          pre.length + (1 + suf.length) - 1) := by
      apply removeOuterLoop_no_match
      intro m hm
      have hq : pre.length ≤ 0 + pre.length + 1 + m := by omega
      rw [List.getElem?_append_right hq]
      rw [show 0 + pre.length + 1 + m - pre.length = 1 + m by omega]
      by_cases hm2 : 1 + m < suf.length
      · rw [List.getElem?_append_left hm2]
        exact ⟨suf[1 + m], List.getElem?_eq_getElem hm2,
          hsufnm (suf[1 + m]) (List.getElem_mem hm2)⟩
      · have heq : 1 + m = suf.length := by omega
        rw [List.getElem?_append_right (le_of_eq heq.symm)]
        rw [show 1 + m - suf.length = 0 by omega]
        rw [List.getElem?_drop]
        rw [show suf.length + 0 = suf.length by omega, ← heq]
        rw [show 1 + m = m + 1 by omega]
        rw [List.getElem?_cons_succ]
        have hmlt : m < suf.length := hm
        exact ⟨suf[m], List.getElem?_eq_getElem hmlt, hsufnm (suf[m]) (List.getElem_mem hmlt)⟩
    have hseg23 : removeOuterLoop ds (1 + suf.length) (pre ++ x :: suf)
        (pre.length + (1 + suf.length)) (0 + pre.length) =
        some (pre ++ (suf ++ (x :: suf).drop suf.length),
          pre.length + (1 + suf.length) - 1) := by
      rw [removeOuterLoop_append ds 1 suf.length]
      have h1step : removeOuterLoop ds 1 (pre ++ x :: suf)
          (pre.length + (1 + suf.length)) (0 + pre.length) =
          some (removeOnce (pre ++ x :: suf) (pre.length + (1 + suf.length)) (0 + pre.length),
            pre.length + (1 + suf.length) - 1) := by
        simp only [removeOuterLoop, hx0, hinner]
      rw [h1step]
      show removeOuterLoop ds suf.length
        (removeOnce (pre ++ x :: suf) (pre.length + (1 + suf.length)) (0 + pre.length))
        (pre.length + (1 + suf.length) - 1) (0 + pre.length + 1) = _
      rw [hb2]
      exact hseg3
    rw [removeShapesDeleted, hL, removeOuterLoop_append ds pre.length (1 + suf.length), hseg1]
    show (match removeOuterLoop ds (1 + suf.length) (pre ++ x :: suf)
        (pre.length + (1 + suf.length)) (0 + pre.length) with
      | none => none
      | some (b, n) => some (b.take n)) = _
    rw [hseg23]
    show some ((pre ++ (suf ++ (x :: suf).drop suf.length)).take
      (pre.length + (1 + suf.length) - 1)) = _
    have htake : (pre ++ (suf ++ (x :: suf).drop suf.length)).take
        (pre.length + (1 + suf.length) - 1) = pre ++ suf := by
      rw [show pre.length + (1 + suf.length) - 1 = (pre ++ suf).length by
        rw [List.length_append]; omega]
      rw [← List.append_assoc]
      exact List.take_left (pre ++ suf) _
    have hfilter : (pre ++ x :: suf).filter (fun s => !(ds.contains s)) = pre ++ suf := by
      have hxm : x ∈ ds := List.elem_iff.mp hxcont
      rw [List.filter_append, List.filter_cons]
      rw [List.filter_eq_self.mpr (fun y hy => by simpa using hprenm y hy)]
      rw [List.filter_eq_self.mpr (fun y hy => by simpa using hsufnm y hy)]
      simp [hxm]
    rw [htake, hfilter]

/-- The implementation's per-block collector agrees with the claim-side
collectors: it gathers exactly the other-author create paths and the
other-author deletion targets, in block order, and fails exactly when
one of them fails to parse. -/
theorem collectShapesLoop_eq (k : PubKey) :
    ∀ (ops : List (String × OpRecord)) (acc : List String × List String),
      collectShapesLoop k acc ops =
        match blockOtherCreates k ops, blockOtherDeleteTargets k ops with
        | some cs, some ds => some (acc.1 ++ cs, acc.2 ++ ds)
        | _, _ => none := by
  intro ops
  induction ops with
  | nil =>
    intro acc
    simp [collectShapesLoop, blockOtherCreates, blockOtherDeleteTargets]
  | cons p rest ih =>
    intro acc
    rw [collectShapesLoop]
    by_cases ha : p.2.authorPubKey = k
    · rw [if_pos ha, ih]
      cases hcs : blockOtherCreates k rest <;> cases hds : blockOtherDeleteTargets k rest <;>
        simp [blockOtherCreates, blockOtherDeleteTargets, hcs, hds, ha]
    · rw [if_neg ha]
      cases hp : parsePath p.2.op with
      | none =>
        cases hcs : blockOtherCreates k rest <;> cases hds : blockOtherDeleteTargets k rest <;>
          by_cases hd : isOpDelete p.2.op = true <;>
          simp [blockOtherCreates, blockOtherDeleteTargets, hcs, hds, ha, hd, hp]
      | some pf =>
        simp only [hp]
        by_cases hd : isOpDelete p.2.op = true
        · rw [if_pos hd, ih]
          cases hcs : blockOtherCreates k rest <;> cases hds : blockOtherDeleteTargets k rest <;>
            simp [blockOtherCreates, blockOtherDeleteTargets, hcs, hds, ha, hd, hp]
        · rw [if_neg hd, ih]
          cases hcs : blockOtherCreates k rest <;> cases hds : blockOtherDeleteTargets k rest <;>
            simp [blockOtherCreates, blockOtherDeleteTargets, hcs, hds, ha, hd, hp]

/-- Under the simple deletion pattern one block's visible shapes are its
other-author creates minus the matching same-block targets. -/
theorem getShapesFromOpRecords_simple (k : PubKey) (ops : List (String × OpRecord))
    (cs ds : List String)
    (hcs : blockOtherCreates k ops = some cs)
    (hds : blockOtherDeleteTargets k ops = some ds)
    (hsimple : simpleDeletionPattern cs ds = true) :
    getShapesFromOpRecords ops k = some (cs.filter (fun s => !(ds.contains s))) := by
  rw [getShapesFromOpRecords, collectShapesLoop_eq k ops ([], []), hcs, hds]
  simp only [List.nil_append]
  exact removeShapesDeleted_simple cs ds hsimple

theorem perBlockCanvas_eq_spec (k : PubKey) :
    ∀ l : List Block, l.all (blockSimplePattern k) = true →
      perBlockCanvas k l = canvasPerBlockSpec k l := by
  intro l
  induction l with
  | nil => intro _; rfl
  | cons b rest ih =>
    intro hall
    rw [List.all_cons, Bool.and_eq_true] at hall
    obtain ⟨hb, hrest⟩ := hall
    rw [perBlockCanvas, canvasPerBlockSpec]
    by_cases hbe : b.opRecords.isEmpty
    · have hnil : b.opRecords = [] := List.isEmpty_iff.mp hbe
      rw [if_pos hbe, ih hrest, hnil]
      cases ht : canvasPerBlockSpec k rest with
      | none => simp [blockOtherCreates, blockOtherDeleteTargets, ht]
      | some t => simp [blockOtherCreates, blockOtherDeleteTargets, ht]
    · rw [if_neg hbe]
      cases hcs : blockOtherCreates k b.opRecords with
      | none =>
        have hg : getShapesFromOpRecords b.opRecords k = none := by
          rw [getShapesFromOpRecords, collectShapesLoop_eq k b.opRecords ([], []), hcs]
        rw [hg]
      | some cs =>
        cases hds : blockOtherDeleteTargets k b.opRecords with
        | none =>
          have hg : getShapesFromOpRecords b.opRecords k = none := by
            rw [getShapesFromOpRecords, collectShapesLoop_eq k b.opRecords ([], []), hcs, hds]
          rw [hg]
        | some ds =>
          have hsimple : simpleDeletionPattern cs ds = true := by
            rw [blockSimplePattern] at hb
            simp only [hcs, hds] at hb
            exact hb
          rw [getShapesFromOpRecords_simple k b.opRecords cs ds hcs hds hsimple, ih hrest]
          cases ht : canvasPerBlockSpec k rest with
          | none => simp [hcs, hds, ht]
          | some t => simp [hcs, hds, ht]

/-- Go's remove-while-ranging removal skips the element shifted into a
removed slot: removing targets A and B from creates A, B, C leaves B in
place, which is why the amended claim is conditioned on the simple
deletion pattern. -/
theorem removeShapesDeleted_skips_shifted :
    removeShapesDeleted ["A", "B", "C"] ["A", "B"] = some ["B", "C"] := by
  decide

/-- A later block that deletes the shape created in an earlier block. -/
def blockDeleteLater : Block := ⟨2, "h1", [("op2", opDeleteOne)], kTwo, 9⟩

def bcCreateThenDelete : BlockChain :=
  ⟨[("h1", blockOne), ("h2d", blockDeleteLater)], "h2d"⟩

/-- C4 as stated is false: the code removes deletion targets only inside
the block that contains the delete op, so a create deleted by a later
block stays visible.  On the concrete chain the create of block one is
deleted in block two, the claim-side set is empty, yet GetShapeTraversal
still returns the shape. -/
theorem claim4_counterexample :
    ancestry bcCreateThenDelete.blocks "g" bcCreateThenDelete.newestHash 5 =
      some [blockDeleteLater, blockOne] ∧
    GetShapeTraversal bcCreateThenDelete "g" kTwo 5 = some ["M 0 0 L 20 20"] ∧
    canvasShapesSpec kTwo [blockDeleteLater, blockOne] = some [] ∧
    (["M 0 0 L 20 20"] : List String) ≠ [] := by
  refine ⟨by decide, by decide, by decide, by decide⟩

theorem getShapeTraversalLoop_eq (blocks : List (String × Block)) (genesisHash : String)
    (k : PubKey) :
    ∀ (fuel : Nat) (h : String) (acc : List String) (l : List Block),
      ancestry blocks genesisHash h fuel = some l →
      getShapeTraversalLoop blocks genesisHash k h acc fuel =
        (perBlockCanvas k l).map (fun t => acc ++ t) := by
  intro fuel
  induction fuel with
  | zero =>
    intro h acc l hanc
    rw [ancestry] at hanc
    by_cases hg : h = genesisHash
    · simp only [hg, if_pos rfl] at hanc
      obtain rfl : ([] : List Block) = l := Option.some.inj hanc
      simp [getShapeTraversalLoop, hg, perBlockCanvas]
    · simp [hg] at hanc
  | succ fuel ih =>
    intro h acc l hanc
    rw [ancestry] at hanc
    by_cases hg : h = genesisHash
    · simp only [hg, if_pos rfl] at hanc
      obtain rfl : ([] : List Block) = l := Option.some.inj hanc
      simp [getShapeTraversalLoop, hg, perBlockCanvas]
    · rw [if_neg hg] at hanc
      rw [getShapeTraversalLoop, if_neg hg]
      cases hb : lookupBlock blocks h with
      | none => simp [hb] at hanc
      | some b =>
        simp only [hb] at hanc ⊢
        cases hl : ancestry blocks genesisHash b.prevHash fuel with
        | none => simp [hl] at hanc
        | some l2 =>
          simp only [hl, Option.map_some'] at hanc
          obtain rfl : b :: l2 = l := Option.some.inj hanc
          by_cases hbe : b.opRecords.isEmpty
          · simp only [hbe, not_true, if_false, if_neg (by simp [hbe] : ¬¬b.opRecords.isEmpty = true)]
            rw [ih b.prevHash acc l2 hl]
            simp [perBlockCanvas, hbe]
          · rw [if_pos (by simp [hbe])]
            cases hs : getShapesFromOpRecords b.opRecords k with
            | none => simp [perBlockCanvas, hbe, hs]
            | some s =>
              simp only [hs]
              rw [ih b.prevHash (acc ++ s) l2 hl]
              cases ht : perBlockCanvas k l2 with
              | none => simp [perBlockCanvas, hbe, hs, ht]
              | some t => simp [perBlockCanvas, hbe, hs, ht, List.append_assoc]

/-- C4 amended: deletion is scoped to single blocks.  Whenever every
ancestry block satisfies the simple deletion pattern (at most one
other-author create matches that block's other-author deletion targets,
each recorded once), the canvas shapes visible to k equal the
concatenation, tip to genesis, of each block's other-author create
polylines minus the ones matching a deletion target recorded in that
same block; a delete op never removes a create recorded in a different
block, and outside the simple pattern Go's remove-while-ranging removal
skips elements shifted into removed slots. -/
theorem claim4_per_block_deletion (bc : BlockChain) (genesisHash : String)
    (k : PubKey) (fuel : Nat) (l : List Block)
    (hanc : ancestry bc.blocks genesisHash bc.newestHash fuel = some l)
    (hsimple : l.all (blockSimplePattern k) = true) :
    GetShapeTraversal bc genesisHash k fuel = canvasPerBlockSpec k l := by
  rw [GetShapeTraversal, getShapeTraversalLoop_eq bc.blocks genesisHash k fuel
    bc.newestHash [] l hanc]
  rw [perBlockCanvas_eq_spec k l hsimple]
  cases hp : canvasPerBlockSpec k l with
  | none => rfl
  | some t => simp

/-- A create and its deletion recorded in one and the same block. -/
def opCreateTwo : OpRecord :=
  ⟨"<path d=\"M 5 5 L 9 9\" stroke=\"blue\" fill=\"transparent\"/>", 8, 7, 8, kOne⟩

def opDeleteTwo : OpRecord :=
  ⟨"delete <path d=\"M 5 5 L 9 9\" stroke=\"blue\" fill=\"transparent\"/>", 8, 9, 10, kOne⟩

def blockPairSameBlock : Block :=
  ⟨2, "h1", [("op3", opCreateTwo), ("op4", opDeleteTwo)], kTwo, 11⟩

def bcSameBlockDelete : BlockChain :=
  ⟨[("h1", blockOne), ("h2s", blockPairSameBlock)], "h2s"⟩

/-- Witness for the amended C4: the create deleted inside its own block
disappears, while the create of the older block survives the later
block's ops; both sides evaluate to the surviving shape. -/
theorem claim4_witness :
    GetShapeTraversal bcSameBlockDelete "g" kTwo 5 =
      canvasPerBlockSpec kTwo [blockPairSameBlock, blockOne] ∧
    canvasPerBlockSpec kTwo [blockPairSameBlock, blockOne] = some ["M 0 0 L 20 20"] := by
  refine ⟨?_, by decide⟩
  exact claim4_per_block_deletion bcSameBlockDelete "g" kTwo 5
    [blockPairSameBlock, blockOne] (by decide) (by decide)

/-- PoW difficulty selected for a block (part_001 lines 866-871): the
NoOp difficulty exactly when the op-record set is empty. -/
def blockDifficulty (settings : MinerNetSettings) (b : Block) : Nat :=
  if b.opRecords.isEmpty then settings.powDifficultyNoOpBlock
  else settings.powDifficultyOpBlock

/-- isValidOperation from part_001 line 920: positive balance, parseable
path, in-bounds, no overlap with other authors' visible shapes, and ink
required at most the uint32-converted balance.  Signatures are not
checked here. -/
def isValidOperation (geom : Geometry) (settings : MinerNetSettings) (bc : BlockChain)
    (op : OpRecord) (fuel : Nat) : Option Bool :=
  match GetInkTraversal bc settings op.authorPubKey fuel with
  | none => none
  | some inkRemaining =>
    if inkRemaining ≤ 0 then some false
    else
      match parsePath op.op with
      | none => none
      | some pf =>
        let requestedSVGPath := geom.convertPathToPoints pf.1
        let isTransparent := pf.2 = "transparent"
        match pf.1.data.getLast? with
        | none => none
        | some lastSVGChar =>
          let isClosed := lastSVGChar = 'Z' ∨ lastSVGChar = 'z'
          if geom.checkOutOfBounds requestedSVGPath settings.canvasXMax settings.canvasYMax then
            some false
          else
            match GetShapeTraversal bc settings.genesisBlockHash op.authorPubKey fuel with
            | none => none
            | some canvasStrings =>
              if canvasStrings.any (fun s =>
                  geom.checkOverlap (geom.convertPathToPoints s) requestedSVGPath) then
                some false
              else
                if geom.calculateInkRequired requestedSVGPath (decide isTransparent)
                    (decide isClosed) > toUInt32Nat inkRemaining then
                  some false
                else some true

/-- hasValidOperations from part_001 line 909: every op of the set must
pass isValidOperation. -/
def hasValidOperations (geom : Geometry) (settings : MinerNetSettings) (bc : BlockChain) :
    List (String × OpRecord) → Nat → Option Bool
  | [], _ => some true
  | p :: rest, fuel =>
    match isValidOperation geom settings bc p.2 fuel with
    | none => none
    | some false => some false
    | some true => hasValidOperations geom settings bc rest fuel

/-- isValidBlock from part_001 line 834: reject duplicates, unknown or
non-consecutive parents, failing proof-of-work, and invalid operations.
The neighbor reconciliation retry on a missing parent is outside this
embedding; the store is taken as already reconciled.  MD5 hashing of the
canonical JSON is the external hashFn. -/
def isValidBlock (hashFn : Block → String) (geom : Geometry) (settings : MinerNetSettings)
    (bc : BlockChain) (block : Block) (fuel : Nat) : Option Bool :=
  if (lookupBlock bc.blocks (hashFn block)).isSome then some false
  else
    match lookupBlock bc.blocks block.prevHash with
    | none => some false
    | some prevBlock =>
      if block.blockNum ≠ prevBlock.blockNum + 1 then some false
      else
        match verifyTrailingZeros (hashFn block) (blockDifficulty settings block) with
        | none => none
        | some false => some false
        | some true =>
          match hasValidOperations geom settings bc block.opRecords fuel with
          | none => none
          | some false => some false
          | some true => some true

/-- One nonce attempt of computeBlock (part_001 lines 267-318): the
difficulty comes from the snapshot pool's emptiness, the candidate block
carries the pool copy as its op records, and the block is returned only
when its hash passes verifyTrailingZeros.  Result: outer none is a Go
panic (missing tip), inner none means this nonce failed. -/
def computeBlockStep (hashFn : Block → String) (settings : MinerNetSettings)
    (pool : List (String × OpRecord)) (bc : BlockChain) (minerPubKey : PubKey)
    (nonce : Nat) : Option (Option Block) :=
  match (if bc.blocks.isEmpty then some 1
    else (lookupBlock bc.blocks bc.newestHash).map (fun b => b.blockNum + 1)) with
  | none => none
  | some nextBlockNum =>
    match verifyTrailingZeros (hashFn ⟨nextBlockNum, bc.newestHash, pool, minerPubKey, nonce⟩)
        (if pool.isEmpty then settings.powDifficultyNoOpBlock
          else settings.powDifficultyOpBlock) with
    | none => none
    | some true => some (some (⟨nextBlockNum, bc.newestHash, pool, minerPubKey, nonce⟩ : Block))
    | some false => some none

theorem vtzGo_not_true_of_overrun (hash : List Char) (hlen : hash.length = 32) :
    ∀ rem i, i ≤ 32 → 32 < i + rem → vtzGo hash rem i ≠ some true := by
  intro rem
  induction rem with
  | zero => intro i hle hlt; omega
  | succ rem ih =>
    intro i hle hlt
    by_cases hi : i = 32
    · subst hi
      have hnone : hash[(287 - 32) % 256]? = none := by
        apply List.getElem?_eq_none_iff.mpr
        omega
      simp [vtzGo, hnone]
    · have hlt31 : 31 - i < hash.length := by omega
      have hidx : (287 - i) % 256 = 31 - i := by omega
      have hget : hash[(287 - i) % 256]? = some hash[31 - i] := by
        rw [hidx]
        exact List.getElem?_eq_getElem hlt31
      by_cases hc : hash[31 - i] = '0'
      · have hstep : vtzGo hash (rem + 1) i = vtzGo hash rem (i + 1) := by
          simp [vtzGo, hget, hc]
        rw [hstep]
        exact ih (i + 1) (by omega) (by omega)
      · have hstep : vtzGo hash (rem + 1) i = some false := by
          simp [vtzGo, hget, hc]
        rw [hstep]
        simp

theorem verifyTrailingZeros_true_dropall (s : String) (d : Nat) (hlen : s.length = 32)
    (htrue : verifyTrailingZeros s d = some true) :
    (s.data.drop (32 - d)).all (fun c => c = '0') = true := by
  have hlen' : s.data.length = 32 := hlen
  have hd : d ≤ 32 := by
    by_contra hgt
    exact vtzGo_not_true_of_overrun s.data hlen' d 0 (by omega) (by omega) htrue
  obtain ⟨_, hiff⟩ := vtzGo_spec s.data hlen' d 0 (by omega)
  rw [verifyTrailingZeros] at htrue
  have hpos := hiff.mp htrue
  apply (vtz_positions_iff_drop s.data hlen' d hd).mp
  intro j hj
  simpa using hpos j hj

theorem isValidBlock_pow (hashFn : Block → String) (geom : Geometry)
    (settings : MinerNetSettings) (bc : BlockChain) (b : Block) (fuel : Nat)
    (hvalid : isValidBlock hashFn geom settings bc b fuel = some true) :
    verifyTrailingZeros (hashFn b) (blockDifficulty settings b) = some true := by
  rw [isValidBlock] at hvalid
  by_cases h1 : (lookupBlock bc.blocks (hashFn b)).isSome
  · rw [if_pos h1] at hvalid
    exact absurd (Option.some.inj hvalid) (by simp)
  · rw [if_neg h1] at hvalid
    cases h2 : lookupBlock bc.blocks b.prevHash with
    | none => simp [h2] at hvalid
    | some prevBlock =>
      simp only [h2] at hvalid
      by_cases h3 : b.blockNum ≠ prevBlock.blockNum + 1
      · rw [if_pos h3] at hvalid
        exact absurd (Option.some.inj hvalid) (by simp)
      · rw [if_neg h3] at hvalid
        cases h4 : verifyTrailingZeros (hashFn b) (blockDifficulty settings b) with
        | none => simp [h4] at hvalid
        | some pow =>
          cases pow with
          | true => rfl
          | false => simp [h4] at hvalid

/-- C2: every accepted block satisfies the proof-of-work invariant.  A
gossiped block passes isValidBlock only if its 32-character hash ends in
at least blockDifficulty zeros (NoOp difficulty exactly for an empty op
set), a hash failing the check forces rejection, and a locally mined
block returned by a successful nonce attempt satisfies the same
invariant (its difficulty comes from its op set, the pool snapshot). -/
theorem claim2_pow_invariant (hashFn : Block → String) (geom : Geometry)
    (settings : MinerNetSettings) (bc : BlockChain) (b : Block) (fuel : Nat) :
    ((hashFn b).length = 32 →
      isValidBlock hashFn geom settings bc b fuel = some true →
      ((hashFn b).data.drop (32 - blockDifficulty settings b)).all
        (fun c => c = '0') = true) ∧
    (verifyTrailingZeros (hashFn b) (blockDifficulty settings b) ≠ some true →
      isValidBlock hashFn geom settings bc b fuel ≠ some true) ∧
    (∀ (pool : List (String × OpRecord)) (minerPubKey : PubKey) (nonce : Nat) (b2 : Block),
      computeBlockStep hashFn settings pool bc minerPubKey nonce = some (some b2) →
      (hashFn b2).length = 32 →
      ((hashFn b2).data.drop (32 - blockDifficulty settings b2)).all
        (fun c => c = '0') = true) := by
  refine ⟨?_, ?_, ?_⟩
  · intro hlen hvalid
    exact verifyTrailingZeros_true_dropall (hashFn b) (blockDifficulty settings b) hlen
      (isValidBlock_pow hashFn geom settings bc b fuel hvalid)
  · intro hpow hvalid
    exact hpow (isValidBlock_pow hashFn geom settings bc b fuel hvalid)
  · intro pool minerPubKey nonce b2 hmined hlen
    rw [computeBlockStep] at hmined
    cases hnum : (if bc.blocks.isEmpty then some 1
        else (lookupBlock bc.blocks bc.newestHash).map (fun blk => blk.blockNum + 1)) with
    | none =>
      simp only [hnum] at hmined
      exact Option.noConfusion hmined
    | some nextBlockNum =>
      simp only [hnum] at hmined
      cases hv : verifyTrailingZeros
          (hashFn ⟨nextBlockNum, bc.newestHash, pool, minerPubKey, nonce⟩)
          (if pool.isEmpty then settings.powDifficultyNoOpBlock
            else settings.powDifficultyOpBlock) with
      | none =>
        simp only [hv] at hmined
        exact Option.noConfusion hmined
      | some pow =>
        cases pow with
        | false =>
          simp only [hv] at hmined
          exact Option.noConfusion (Option.some.inj hmined)
        | true =>
          simp only [hv] at hmined
          obtain rfl := Option.some.inj (Option.some.inj hmined)
          exact verifyTrailingZeros_true_dropall _ _ hlen hv

def geomTrivial : Geometry :=
  ⟨fun _ => [], fun _ _ _ => false, fun _ _ => false, fun _ _ _ => 0⟩

def hashEndingZeros : String := "abcdef0123456789abcdef0123456700"

/-- Witness for C2: mining one nonce on the empty store with a constant
hash ending in two zeros succeeds at NoOp difficulty 2, and the mined
block's hash suffix is all zeros. -/
theorem claim2_witness :
    ((hashEndingZeros.data.drop
      (32 - blockDifficulty settingsA (⟨1, "g", [], kOne, 0⟩ : Block))).all
        (fun c => c = '0') = true) := by
  exact (claim2_pow_invariant (fun _ => hashEndingZeros) geomTrivial settingsA
    ⟨[], "g"⟩ ⟨1, "g", [], kOne, 0⟩ 5).2.2 [] kOne 0 ⟨1, "g", [], kOne, 0⟩
    (by decide) (by decide)

/-- AddShape from src/ink-miner.go lines 378-435, the code path whose
ink-sufficiency comparison is inverted: after the balance, bounds and
overlap checks it returns INSUFFICIENTINK when inkRequired is LESS than
uint32(inkRemaining) and proceeds otherwise.  (part_001's AddShape uses
the opposite comparison.)  The canvas shapes come from the shared shape
traversal; the geometry utilities are external parameters.  Result:
outer none is a panic, inner value is the returned error, none for
success. -/
def AddShape (geom : Geometry) (bc : BlockChain) (settings : MinerNetSettings)
    (k : PubKey) (svgString : String) (isTransparent isClosed : Bool) (fuel : Nat) :
    Option (Option MinerError) :=
  match GetInkTraversal bc settings k fuel with
  | none => none
  | some inkRemaining =>
    if inkRemaining ≤ 0 then some (some MinerError.insufficientInk)
    else
      if geom.checkOutOfBounds (geom.convertPathToPoints svgString)
          settings.canvasXMax settings.canvasYMax then
        some (some MinerError.outOfBounds)
      else
        match GetShapeTraversal bc settings.genesisBlockHash k fuel with
        | none => none
        | some canvasStrings =>
          if canvasStrings.any (fun s =>
              geom.checkOverlap (geom.convertPathToPoints s)
                (geom.convertPathToPoints svgString)) then
            some (some MinerError.shapeOverlap)
          else
            if geom.calculateInkRequired (geom.convertPathToPoints svgString)
                isTransparent isClosed < toUInt32Nat inkRemaining then
              some (some MinerError.insufficientInk)
            else some none

/-- Geometry stub whose ink cost is 5 and whose bounds/overlap checks
always pass. -/
def geomCostFive : Geometry :=
  ⟨fun _ => [], fun _ _ _ => false, fun _ _ => false, fun _ _ _ => 5⟩

/-- Geometry stub whose ink cost is 100 and whose bounds/overlap checks
always pass. -/
def geomCostHundred : Geometry :=
  ⟨fun _ => [], fun _ _ _ => false, fun _ _ => false, fun _ _ _ => 100⟩

/-- A single NoOp block mined by key one: its balance is the NoOp reward
10 of settingsA. -/
def blockNoop : Block := ⟨1, "g", [], kOne, 3⟩

def bcNoop : BlockChain := ⟨[("hn", blockNoop)], "hn"⟩

/-- C1: the claim states the correct condition (reject exactly when the
required ink exceeds the balance) and the ink-miner.go code path inverts
it: with balance 10, an affordable 5-ink request is rejected with
INSUFFICIENTINK while an unaffordable 100-ink request passes the ink
check. -/
theorem claim1_inverted_ink_check :
    GetInkTraversal bcNoop settingsA kOne 5 = some 10 ∧
    AddShape geomCostFive bcNoop settingsA kOne "M 1 1 L 2 2" true false 5 =
      some (some MinerError.insufficientInk) ∧
    AddShape geomCostHundred bcNoop settingsA kOne "M 1 1 L 2 2" true false 5 =
      some none := by
  refine ⟨by decide, by decide, by decide⟩

end BlockArt
